import Mathlib

/-!
# Verification of the Charms contract verification engine

A shallow embedding of the core of the `charms` repository: the canonical
spell model (`Spell`, `NormalizedSpell`, normalization and denormalization),
the structural consistency checker (`is_correct`), and the contract
satisfaction engine (`AppRunner`).

Rust `BTreeMap`s and `BTreeSet`s are embedded as sorted, duplicate-free
association lists (`foldl`-insertion, matching the iterate-and-insert
semantics of `collect()`); machine integers are `Nat`; fallible code
returns `Except String`.
-/

set_option maxHeartbeats 1000000
set_option maxRecDepth 8000

namespace Charms

/-! ## Sorted lists and maps (model of `BTreeSet` / `BTreeMap`) -/

section SortedList

variable {α : Type*} {β : Type*} [LinearOrder α]

/-- Insert into a sorted duplicate-free list; if the element is already
present, the existing element is kept (Rust `BTreeSet::insert`). -/
def sInsert (a : α) : List α → List α
  | [] => [a]
  | b :: t => if a < b then a :: b :: t else if a = b then b :: t else b :: sInsert a t

/-- Build a set from a list by successive insertion (`collect::<BTreeSet<_>>()`). -/
def sOfList (l : List α) : List α :=
  l.foldl (fun s a => sInsert a s) []

/-- Insert a binding into an association list sorted by key; an existing
binding for the same key is replaced (Rust `BTreeMap::insert`). -/
def mInsert (k : α) (v : β) : List (α × β) → List (α × β)
  | [] => [(k, v)]
  | (k', v') :: t =>
    if k < k' then (k, v) :: (k', v') :: t
    else if k = k' then (k, v) :: t
    else (k', v') :: mInsert k v t

/-- Build a map from a list of bindings by successive insertion
(`collect::<BTreeMap<_, _>>()`: on duplicate keys the last binding wins). -/
def mOfList (l : List (α × β)) : List (α × β) :=
  l.foldl (fun m p => mInsert p.1 p.2 m) []

/-- Keys of a map, in list order. -/
def mKeys (m : List (α × β)) : List α := m.map Prod.fst

/-- Values of a map, in list order. -/
def mValues (m : List (α × β)) : List β := m.map Prod.snd

/-- First binding for key `k` (`BTreeMap::get`). -/
def mGet? (m : List (α × β)) (k : α) : Option β :=
  match m with
  | [] => none
  | (k', v) :: t => if k = k' then some v else mGet? t k

/-- Remove the binding for key `k` (`BTreeMap::remove`). -/
def mErase (m : List (α × β)) (k : α) : List (α × β) :=
  m.filter (fun p => p.1 ≠ k)

/-- A list is strictly ascending. -/
def Ascending (l : List α) : Prop := l.Sorted (· < ·)

/-- A map's keys are strictly ascending (the invariant of `BTreeMap`). -/
def SortedKeys (m : List (α × β)) : Prop := Ascending (mKeys m)

theorem mem_sInsert {a b : α} {l : List α} : b ∈ sInsert a l ↔ b = a ∨ b ∈ l := by
  induction l with
  | nil => simp [sInsert]
  | cons c t ih =>
    simp only [sInsert]
    split_ifs with h1 h2
    · simp
    · subst h2; simp only [List.mem_cons]; tauto
    · simp only [List.mem_cons, ih]; tauto

theorem ascending_sInsert {a : α} {l : List α} (h : Ascending l) :
    Ascending (sInsert a l) := by
  induction l with
  | nil => simp [sInsert, Ascending]
  | cons c t ih =>
    have hc : Ascending t := h.of_cons
    have hct : ∀ x ∈ t, c < x := fun x hx => List.rel_of_sorted_cons h x hx
    simp only [sInsert]
    split_ifs with h1 h2
    · refine List.sorted_cons.mpr ⟨?_, h⟩
      intro x hx
      rcases List.mem_cons.mp hx with rfl | hx
      · exact h1
      · exact h1.trans (hct x hx)
    · exact h
    · have hca : c < a := lt_of_le_of_ne (not_lt.mp h1) (Ne.symm h2)
      refine List.sorted_cons.mpr ⟨?_, ih hc⟩
      intro x hx
      rcases mem_sInsert.mp hx with rfl | hx
      · exact hca
      · exact hct x hx

theorem ascending_foldl_sInsert {l : List α} {acc : List α} (h : Ascending acc) :
    Ascending (l.foldl (fun s a => sInsert a s) acc) := by
  induction l generalizing acc with
  | nil => exact h
  | cons a t ih => exact ih (ascending_sInsert h)

theorem ascending_sOfList (l : List α) : Ascending (sOfList l) :=
  ascending_foldl_sInsert (by simp [Ascending])

theorem mem_foldl_sInsert {l : List α} {acc : List α} {b : α} :
    b ∈ l.foldl (fun s a => sInsert a s) acc ↔ b ∈ acc ∨ b ∈ l := by
  induction l generalizing acc with
  | nil => simp
  | cons a t ih =>
    simp only [List.foldl_cons, ih, mem_sInsert, List.mem_cons]
    tauto

theorem mem_sOfList {l : List α} {b : α} : b ∈ sOfList l ↔ b ∈ l := by
  simp [sOfList, mem_foldl_sInsert]

theorem Ascending.nodup {l : List α} (h : Ascending l) : l.Nodup :=
  h.imp ne_of_lt

/-- Two strictly ascending lists with the same members are equal. -/
theorem ascending_eq_of_mem_iff {l₁ l₂ : List α} (h₁ : Ascending l₁) (h₂ : Ascending l₂)
    (h : ∀ x, x ∈ l₁ ↔ x ∈ l₂) : l₁ = l₂ := by
  induction l₁ generalizing l₂ with
  | nil =>
    cases l₂ with
    | nil => rfl
    | cons b t => exact absurd ((h b).mpr (by simp)) (by simp)
  | cons a t ih =>
    cases l₂ with
    | nil => exact absurd ((h a).mp (by simp)) (by simp)
    | cons b t' =>
      have hab : a = b := by
        rcases List.mem_cons.mp ((h a).mp (List.mem_cons_self a t)) with h' | h'
        · exact h'
        · rcases List.mem_cons.mp ((h b).mpr (List.mem_cons_self b t')) with h'' | h''
          · exact h''.symm
          · exact absurd (List.rel_of_sorted_cons h₂ a h')
              (not_lt.mpr (le_of_lt (List.rel_of_sorted_cons h₁ b h'')))
      subst hab
      have ht : ∀ x, x ∈ t ↔ x ∈ t' := by
        intro x
        constructor
        · intro hx
          rcases List.mem_cons.mp ((h x).mp (List.mem_cons_of_mem a hx)) with rfl | hx'
          · exact absurd (List.rel_of_sorted_cons h₁ x hx) (lt_irrefl x)
          · exact hx'
        · intro hx
          rcases List.mem_cons.mp ((h x).mpr (List.mem_cons_of_mem a hx)) with rfl | hx'
          · exact absurd (List.rel_of_sorted_cons h₂ x hx) (lt_irrefl x)
          · exact hx'
      exact congrArg (a :: ·) (ih h₁.of_cons h₂.of_cons ht)

theorem sOfList_eq_sOfList_iff {l₁ l₂ : List α} :
    sOfList l₁ = sOfList l₂ ↔ ∀ x, x ∈ l₁ ↔ x ∈ l₂ := by
  constructor
  · intro h x
    rw [← mem_sOfList (l := l₁), ← mem_sOfList (l := l₂), h]
  · intro h
    exact ascending_eq_of_mem_iff (ascending_sOfList l₁) (ascending_sOfList l₂)
      (by intro x; rw [mem_sOfList, mem_sOfList]; exact h x)

theorem mKeys_mInsert {k : α} {v : β} {m : List (α × β)} :
    mKeys (mInsert k v m) = sInsert k (mKeys m) := by
  induction m with
  | nil => simp [mInsert, sInsert, mKeys]
  | cons p t ih =>
    obtain ⟨k', v'⟩ := p
    simp only [mInsert, mKeys, sInsert]
    split_ifs <;> simp_all [mKeys]

theorem sortedKeys_mInsert {k : α} {v : β} {m : List (α × β)} (h : SortedKeys m) :
    SortedKeys (mInsert k v m) := by
  unfold SortedKeys
  rw [mKeys_mInsert]
  exact ascending_sInsert h

theorem mKeys_foldl_mInsert {l : List (α × β)} {acc : List (α × β)} :
    mKeys (l.foldl (fun m p => mInsert p.1 p.2 m) acc) =
      (l.map Prod.fst).foldl (fun s a => sInsert a s) (mKeys acc) := by
  induction l generalizing acc with
  | nil => rfl
  | cons p t ih => simp only [List.foldl_cons, List.map_cons, ih, mKeys_mInsert]

theorem mKeys_mOfList {l : List (α × β)} :
    mKeys (mOfList l) = sOfList (l.map Prod.fst) := by
  simp [mOfList, sOfList, mKeys_foldl_mInsert]; rfl

theorem sortedKeys_mOfList (l : List (α × β)) : SortedKeys (mOfList l) := by
  unfold SortedKeys
  rw [mKeys_mOfList]
  exact ascending_sOfList _

theorem mem_mKeys_mOfList {l : List (α × β)} {k : α} :
    k ∈ mKeys (mOfList l) ↔ k ∈ l.map Prod.fst := by
  rw [mKeys_mOfList, mem_sOfList]

theorem mGet?_eq_none_iff {m : List (α × β)} {k : α} :
    mGet? m k = none ↔ k ∉ mKeys m := by
  induction m with
  | nil => simp [mGet?, mKeys]
  | cons p t ih =>
    obtain ⟨k', v'⟩ := p
    simp only [mGet?, mKeys, List.map_cons, List.mem_cons]
    split_ifs with h
    · simp [h]
    · simp [ih, mKeys, h]

theorem mGet?_isSome_iff {m : List (α × β)} {k : α} :
    (mGet? m k).isSome = true ↔ k ∈ mKeys m := by
  constructor
  · intro h
    by_contra hk
    rw [← mGet?_eq_none_iff] at hk
    simp [hk] at h
  · intro h
    cases hg : mGet? m k with
    | none => exact absurd (mGet?_eq_none_iff.mp hg) (not_not.mpr h)
    | some v => rfl

theorem mGet?_mInsert_self {k : α} {v : β} {m : List (α × β)} :
    mGet? (mInsert k v m) k = some v := by
  induction m with
  | nil => simp [mInsert, mGet?]
  | cons p t ih =>
    obtain ⟨k', v'⟩ := p
    simp only [mInsert]
    split_ifs with h1 h2
    · simp [mGet?]
    · simp [mGet?]
    · have : k ≠ k' := h2
      simp [mGet?, this, ih]

theorem mGet?_mInsert_ne {k k' : α} {v : β} {m : List (α × β)} (h : k' ≠ k) :
    mGet? (mInsert k v m) k' = mGet? m k' := by
  induction m with
  | nil => simp [mInsert, mGet?, h]
  | cons p t ih =>
    obtain ⟨k'', v''⟩ := p
    simp only [mInsert]
    split_ifs with h1 h2
    · simp [mGet?, h]
    · subst h2; simp [mGet?, h]
    · by_cases h3 : k' = k''
      · simp [mGet?, h3]
      · simp [mGet?, h3, ih]

theorem mOfList_append {l₁ l₂ : List (α × β)} :
    mOfList (l₁ ++ l₂) = l₂.foldl (fun m p => mInsert p.1 p.2 m) (mOfList l₁) := by
  simp [mOfList, List.foldl_append]

/-- In a map built from bindings with no duplicate keys, each original binding
is retrievable. -/
theorem mGet?_mOfList_of_nodup {l : List (α × β)} {k : α} {v : β}
    (hnd : (l.map Prod.fst).Nodup) (hmem : (k, v) ∈ l) :
    mGet? (mOfList l) k = some v := by
  induction l using List.reverseRecOn with
  | nil => simp at hmem
  | append_singleton l' p ih =>
    obtain ⟨k', v'⟩ := p
    rw [mOfList_append]
    simp only [List.foldl_cons, List.foldl_nil]
    rcases List.mem_append.mp hmem with hmem' | hlast
    · have hk : k ≠ k' := by
        intro h
        subst h
        have h1 : k ∈ l'.map Prod.fst := List.mem_map_of_mem Prod.fst hmem'
        have h2 := List.nodup_append.mp (by simpa using hnd)
        exact h2.2.2 h1 (by simp)
      rw [mGet?_mInsert_ne hk]
      exact ih (List.Nodup.of_append_left (by simpa using hnd)) hmem'
    · simp only [List.mem_singleton, Prod.mk.injEq] at hlast
      obtain ⟨rfl, rfl⟩ := hlast
      exact mGet?_mInsert_self

theorem mem_mKeys_mErase {m : List (α × β)} {k t : α} :
    t ∈ mKeys (mErase m k) ↔ t ∈ mKeys m ∧ t ≠ k := by
  simp only [mErase, mKeys, List.mem_map, List.mem_filter]
  constructor
  · rintro ⟨p, ⟨hp, hne⟩, rfl⟩
    exact ⟨⟨p, hp, rfl⟩, by simpa using hne⟩
  · rintro ⟨⟨p, hp, rfl⟩, hne⟩
    exact ⟨p, ⟨hp, by simpa using hne⟩, rfl⟩

/-- `sOfList` maps length-preservation to duplicate-freedom: the set built from
a list has the same length iff the list has no duplicates. -/
theorem length_sOfList_eq_iff_nodup {l : List α} :
    (sOfList l).length = l.length ↔ l.Nodup := by
  have hset : (sOfList l).toFinset = l.toFinset := by
    ext x; simp [List.mem_toFinset, mem_sOfList]
  have hnodup : (sOfList l).Nodup := (ascending_sOfList l).nodup
  have hlen : (sOfList l).length = l.dedup.length := by
    have h1 : (sOfList l).toFinset.card = (sOfList l).length :=
      List.toFinset_card_of_nodup hnodup
    have h2 : l.toFinset.card = l.dedup.length := List.card_toFinset l
    rw [← h1, hset, h2]
  rw [hlen]
  constructor
  · intro h
    have := List.Sublist.eq_of_length (List.dedup_sublist l) h
    exact this ▸ List.nodup_dedup l
  · intro h
    rw [List.dedup_eq_self.mpr h]

end SortedList

/-! ## Fallible iteration (model of `collect::<Result<_, _>>()`) -/

/-- Map a fallible function over a list, stopping at the first error
(the semantics of Rust's `collect::<Result<Vec<_>, E>>()`). -/
def mapE {α β : Type*} (l : List α) (f : α → Except String β) : Except String (List β) :=
  match l with
  | [] => .ok []
  | a :: t =>
    match f a with
    | .error e => .error e
    | .ok b =>
      match mapE t f with
      | .error e => .error e
      | .ok bs => .ok (b :: bs)

theorem mapE_ok_iff {α β : Type*} {l : List α} {f : α → Except String β} {ys : List β} :
    mapE l f = .ok ys ↔ List.Forall₂ (fun a b => f a = .ok b) l ys := by
  induction l generalizing ys with
  | nil =>
    cases ys <;> simp [mapE]
  | cons a t ih =>
    simp only [mapE]
    cases hfa : f a with
    | error e =>
      constructor
      · intro h; cases h
      · intro h
        cases h with
        | cons h1 h2 => rw [hfa] at h1; cases h1
    | ok b =>
      cases hmt : mapE t f with
      | error e =>
        constructor
        · intro h; cases h
        · intro h
          cases h with
          | cons h1 h2 =>
            have := ih.mpr h2
            rw [hmt] at this; cases this
      | ok bs =>
        constructor
        · intro h
          cases h
          exact List.Forall₂.cons hfa (ih.mp hmt)
        · intro h
          cases ys with
          | nil => cases h
          | cons y ys' =>
            cases h with
            | cons h1 h2 =>
              rw [hfa] at h1
              cases h1
              have := ih.mpr h2
              rw [hmt] at this
              cases this
              rfl

theorem mapE_error_of_mem {α β : Type*} {l : List α} {f : α → Except String β} {a : α}
    (hmem : a ∈ l) (herr : ∀ b, f a ≠ .ok b) : ∃ e, mapE l f = .error e := by
  induction l with
  | nil => simp at hmem
  | cons x t ih =>
    simp only [mapE]
    cases hfx : f x with
    | error e => exact ⟨e, rfl⟩
    | ok b =>
      rcases List.mem_cons.mp hmem with rfl | hmem'
      · exact absurd hfx (herr b)
      · obtain ⟨e, he⟩ := ih hmem'
        rw [he]
        exact ⟨e, rfl⟩

theorem mapE_isOk_forall {α β : Type*} {l : List α} {f : α → Except String β} {ys : List β}
    (h : mapE l f = .ok ys) {a : α} (hmem : a ∈ l) : ∃ b, f a = .ok b := by
  induction l generalizing ys with
  | nil => simp at hmem
  | cons x t ih =>
    rcases mapE_ok_iff.mp h with _ | ⟨h1, h2⟩
    rcases List.mem_cons.mp hmem with rfl | hmem'
    · exact ⟨_, h1⟩
    · exact ih (mapE_ok_iff.mpr h2) hmem'

/-! ## Base data model (`charms_data`)

`charms_data` is a dependency of this repository whose sources are not in the
tree; its data types are modelled from the spec (§3): `B32` is a fixed 32-byte
identifier with byte-wise ordering, encoded here as the natural number the 32
bytes denote in big-endian (an order-preserving, injective encoding);
`UtxoId` is a (transaction id, output index) pair; `App` is an orderable
identity value carrying at minimum a verification key; `Data` is an opaque
serialized blob compared structurally, encoded as its byte list. -/

/-- Modelled from the spec: fixed 32-byte identifier (`charms_data::B32`),
encoded as a natural number (big-endian value of the bytes). -/
abbrev B32 := Nat

/-- Modelled from the spec: transaction identifier (`charms_data::TxId`). -/
abbrev TxId := Nat

/-- Modelled from the spec: `charms_data::UtxoId` — pair of transaction id and
output index, ordered lexicographically. -/
structure UtxoId where
  txid : TxId
  vout : Nat
deriving DecidableEq, Repr

instance : LinearOrder UtxoId :=
  LinearOrder.lift' (fun u => Nat.pair u.txid u.vout)
    (fun a b h => by
      obtain ⟨h1, h2⟩ := Nat.pair_eq_pair.mp h
      cases a; cases b; simp_all)

/-- Modelled from the spec: `charms_data::App` — an opaque, orderable identity
value that includes at minimum a verification key `vk` (a `B32` hash of the
app's bytecode). The particular linear order is immaterial to the claims,
which only require a fixed total order on `App`. -/
structure App where
  ident : Nat
  vk : B32
deriving DecidableEq, Repr

instance : LinearOrder App :=
  LinearOrder.lift' (fun a => Nat.pair a.ident a.vk)
    (fun a b h => by
      obtain ⟨h1, h2⟩ := Nat.pair_eq_pair.mp h
      cases a; cases b; simp_all)

/-- Modelled from the spec: `charms_data::Data` — an opaque,
structurally-comparable serialized blob (its bytes). `Data::empty()` is the
empty blob and `Data::is_empty` tests for it. -/
abbrev Data := List Nat

/-- Modelled from the spec: app→data charm map (`charms_data::Charms`). -/
abbrev Charms := List (App × Data)

/-- A Rust `String` key, modelled as its character list: Rust's `String`
ordering (byte-wise lexicographic, which on UTF-8 agrees with codepoint
lexicographic order) is the lexicographic order on the characters. -/
abbrev SKey := List Char

/-- Modelled from the spec: the canonical transaction view that contracts
validate against (`charms_data::Transaction`): inputs and reference inputs
with resolved charms, and output charms. -/
structure Transaction where
  ins : List (UtxoId × Charms)
  refs : List (UtxoId × Charms)
  outs : List Charms
deriving DecidableEq, Repr

/-! ## SHA-256 (`sha2::Sha256`, used by `AppRunner::vk`)

A byte-level executable implementation of FIPS 180-4 SHA-256 over `Nat`,
with 32-bit words represented as `Nat` reduced `% 2^32`. -/

def w32 (n : Nat) : Nat := n % 4294967296

def rotr32 (n x : Nat) : Nat := w32 ((x >>> n) ||| (x <<< (32 - n)))

def shaCh (x y z : Nat) : Nat := w32 ((x &&& y) ^^^ ((4294967295 - x) &&& z))

def shaMaj (x y z : Nat) : Nat := w32 ((x &&& y) ^^^ (x &&& z) ^^^ (y &&& z))

def bigSigma0 (x : Nat) : Nat := w32 (rotr32 2 x ^^^ rotr32 13 x ^^^ rotr32 22 x)

def bigSigma1 (x : Nat) : Nat := w32 (rotr32 6 x ^^^ rotr32 11 x ^^^ rotr32 25 x)

def smallSigma0 (x : Nat) : Nat := w32 (rotr32 7 x ^^^ rotr32 18 x ^^^ (x >>> 3))

def smallSigma1 (x : Nat) : Nat := w32 (rotr32 17 x ^^^ rotr32 19 x ^^^ (x >>> 10))

def shaK : List Nat := [
  1116352408, 1899447441, 3049323471, 3921009573, 961987163,
  1508970993, 2453635748, 2870763221, 3624381080, 310598401,
  607225278, 1426881987, 1925078388, 2162078206, 2614888103,
  3248222580, 3835390401, 4022224774, 264347078, 604807628,
  770255983, 1249150122, 1555081692, 1996064986, 2554220882,
  2821834349, 2952996808, 3210313671, 3336571891, 3584528711,
  113926993, 338241895, 666307205, 773529912, 1294757372,
  1396182291, 1695183700, 1986661051, 2177026350, 2456956037,
  2730485921, 2820302411, 3259730800, 3345764771, 3516065817,
  3600352804, 4094571909, 275423344, 430227734, 506948616,
  659060556, 883997877, 958139571, 1322822218, 1537002063,
  1747873779, 1955562222, 2024104815, 2227730452, 2361852424,
  2428436474, 2756734187, 3204031479, 3329325298]

def shaH0 : List Nat :=
  [1779033703, 3144134277, 1013904242, 2773480762,
   1359893119, 2600822924, 528734635, 1541459225]

/-- Big-endian bytes of `n`, `len` bytes. -/
def beBytes (len n : Nat) : List Nat :=
  match len with
  | 0 => []
  | len + 1 => beBytes len (n / 256) ++ [n % 256]

/-- SHA-256 message padding: append `0x80`, zero bytes to 56 mod 64, and the
64-bit big-endian bit length. -/
def shaPad (msg : List Nat) : List Nat :=
  let z := (64 - (msg.length + 9) % 64) % 64
  msg ++ [0x80] ++ List.replicate z 0 ++ beBytes 8 (8 * msg.length)

/-- Split a (padded) byte list into 64-byte blocks (structural recursion on a
fuel bound so that the kernel can evaluate it). -/
def toBlocksAux : Nat → List Nat → List (List Nat)
  | _, [] => []
  | 0, _ :: _ => []
  | fuel + 1, a :: t => (a :: t).take 64 :: toBlocksAux fuel ((a :: t).drop 64)

def toBlocks (l : List Nat) : List (List Nat) := toBlocksAux l.length l

/-- Combine 4 consecutive bytes into big-endian 32-bit words. -/
def toWords (l : List Nat) : List Nat :=
  match l with
  | b0 :: b1 :: b2 :: b3 :: t => (((b0 * 256 + b1) * 256 + b2) * 256 + b3) :: toWords t
  | _ => []

/-- Extend the 16 message words to the 64-entry message schedule. -/
def shaSchedule (ws : List Nat) : List Nat :=
  (List.range 48).foldl
    (fun acc _ =>
      let n := acc.length
      let wn := w32 (smallSigma1 (acc.getD (n - 2) 0) + acc.getD (n - 7) 0 +
        smallSigma0 (acc.getD (n - 15) 0) + acc.getD (n - 16) 0)
      acc ++ [wn])
    ws

/-- One compression round. -/
def shaRound (st : Nat × Nat × Nat × Nat × Nat × Nat × Nat × Nat) (kw : Nat × Nat) :
    Nat × Nat × Nat × Nat × Nat × Nat × Nat × Nat :=
  let (a, b, c, d, e, f, g, h) := st
  let (k, w) := kw
  let t1 := w32 (h + bigSigma1 e + shaCh e f g + k + w)
  let t2 := w32 (bigSigma0 a + shaMaj a b c)
  (w32 (t1 + t2), a, b, c, w32 (d + t1), e, f, g)

/-- Process one 64-byte block. -/
def shaBlock (h : List Nat) (block : List Nat) : List Nat :=
  let ws := shaSchedule (toWords block)
  let init := (h.getD 0 0, h.getD 1 0, h.getD 2 0, h.getD 3 0,
    h.getD 4 0, h.getD 5 0, h.getD 6 0, h.getD 7 0)
  let (a, b, c, d, e, f, g, hh) := (shaK.zip ws).foldl shaRound init
  [w32 (h.getD 0 0 + a), w32 (h.getD 1 0 + b), w32 (h.getD 2 0 + c), w32 (h.getD 3 0 + d),
   w32 (h.getD 4 0 + e), w32 (h.getD 5 0 + f), w32 (h.getD 6 0 + g), w32 (h.getD 7 0 + hh)]

/-- SHA-256 digest of a byte list, as 32 bytes. -/
def sha256 (msg : List Nat) : List Nat :=
  let final := (toBlocks (shaPad msg)).foldl shaBlock shaH0
  final.flatMap (beBytes 4)

/-- Big-endian value of a byte list (the `B32` encoding of a 32-byte digest). -/
def bytesToNat (l : List Nat) : Nat :=
  l.foldl (fun acc b => acc * 256 + b) 0

/-- SHA-256 digest as a `B32` (in this model's numeric encoding). -/
def sha256Nat (msg : List Nat) : B32 := bytesToNat (sha256 msg)

/-! ## Positional string keys (`utils::str_index`) -/

/-- Decimal digits of `i`, most significant first (`[0]` for zero). -/
def decDigitsBE (i : Nat) : List Nat :=
  if i = 0 then [0] else (Nat.digits 10 i).reverse

/-- A decimal digit as its ASCII character. -/
def digitChar (d : Nat) : Char := Char.ofNat (48 + d)

/-- `utils::str_index`: the string `format!("${:04}", i)` — a dollar sign
followed by the decimal representation of `i`, zero-padded to at least four
digits. -/
def str_index (i : Nat) : SKey :=
  let ds := decDigitsBE i
  let padded := List.replicate (4 - ds.length) 0 ++ ds
  '$' :: padded.map digitChar

/-- Value of a big-endian digit list. -/
def bval (l : List Nat) : Nat := l.foldl (fun a d => a * 10 + d) 0

theorem bval_replicate_zero_append (k : Nat) (l : List Nat) :
    bval (List.replicate k 0 ++ l) = bval l := by
  have h : ∀ k, (List.replicate k 0).foldl (fun a d => a * 10 + d) 0 = 0 := by
    intro k
    induction k with
    | zero => rfl
    | succ n ih => simpa [List.replicate_succ] using ih
  simp [bval, List.foldl_append, h]

theorem bval_reverse_eq_ofDigits (l : List Nat) :
    bval l.reverse = Nat.ofDigits 10 l := by
  induction l with
  | nil => rfl
  | cons d t ih =>
    simp only [List.reverse_cons, bval, List.foldl_append, List.foldl_cons, List.foldl_nil,
      Nat.ofDigits_cons]
    rw [show (t.reverse.foldl (fun a d => a * 10 + d) 0) = bval t.reverse from rfl, ih]
    ring

theorem bval_decDigitsBE (i : Nat) : bval (decDigitsBE i) = i := by
  unfold decDigitsBE
  split_ifs with h
  · subst h; rfl
  · rw [bval_reverse_eq_ofDigits]
    exact_mod_cast Nat.ofDigits_digits 10 i

theorem decDigitsBE_lt (i : Nat) : ∀ d ∈ decDigitsBE i, d < 10 := by
  intro d hd
  unfold decDigitsBE at hd
  split_ifs at hd with h
  · simp at hd; omega
  · exact Nat.digits_lt_base (by norm_num) (List.mem_reverse.mp hd)

theorem digitChar_inj_fin : ∀ d e : Fin 10, digitChar d.val = digitChar e.val → d = e := by
  decide

theorem map_digitChar_inj {l₁ l₂ : List Nat} (h₁ : ∀ d ∈ l₁, d < 10) (h₂ : ∀ d ∈ l₂, d < 10)
    (h : l₁.map digitChar = l₂.map digitChar) : l₁ = l₂ := by
  induction l₁ generalizing l₂ with
  | nil => cases l₂ <;> simp_all
  | cons d t ih =>
    cases l₂ with
    | nil => simp at h
    | cons e t' =>
      simp only [List.map_cons, List.cons.injEq] at h
      have hd : d < 10 := h₁ d (by simp)
      have he : e < 10 := h₂ e (by simp)
      have : (⟨d, hd⟩ : Fin 10) = ⟨e, he⟩ := digitChar_inj_fin ⟨d, hd⟩ ⟨e, he⟩ h.1
      have hde : d = e := congrArg Fin.val this
      subst hde
      exact congrArg (d :: ·) (ih (fun x hx => h₁ x (by simp [hx]))
        (fun x hx => h₂ x (by simp [hx])) h.2)

theorem str_index_injective : Function.Injective str_index := by
  intro i j h
  unfold str_index at h
  have hdata : ('$' :: _) = ('$' :: _) := h
  simp only [List.cons.injEq] at hdata
  have hpad := map_digitChar_inj
    (fun d hd => by
      rcases List.mem_append.mp hd with hd | hd
      · simp only [List.mem_replicate] at hd; omega
      · exact decDigitsBE_lt i d hd)
    (fun d hd => by
      rcases List.mem_append.mp hd with hd | hd
      · simp only [List.mem_replicate] at hd; omega
      · exact decDigitsBE_lt j d hd)
    hdata.2
  have hi := bval_decDigitsBE i
  have hj := bval_decDigitsBE j
  rw [← bval_replicate_zero_append (4 - (decDigitsBE i).length) (decDigitsBE i)] at hi
  rw [← bval_replicate_zero_append (4 - (decDigitsBE j).length) (decDigitsBE j)] at hj
  rw [← hi, ← hj, hpad]

/-! ## The spell model (`src/spell.rs` and the `charms_client` types) -/

/-- Charm as represented in a spell: map of `$KEY: data` (`KeyedCharms`). -/
abbrev KeyedCharms := List (SKey × Data)

/-- UTXO as represented in a spell (`spell::Input`). -/
structure Input where
  utxo_id : Option UtxoId
  charms : Option KeyedCharms
  beamed_from : Option UtxoId
deriving DecidableEq, Repr

/-- Transaction output as represented in a spell (`spell::Output`). -/
structure Output where
  address : Option String
  amount : Option Nat
  charms : Option KeyedCharms
  beam_to : Option B32
deriving DecidableEq, Repr

/-- A spell in its source form (`spell::Spell`). -/
structure Spell where
  version : Nat
  apps : List (SKey × App)
  public_args : Option (List (SKey × Data))
  private_args : Option (List (SKey × Data))
  ins : List Input
  refs : Option (List Input)
  outs : List Output
deriving DecidableEq, Repr

/-- Modelled from the spec: output charm map of a `NormalizedSpell`, keyed by
a dense integer app-index (`charms_client::NormalizedCharms`). -/
abbrev NormalizedCharms := List (Nat × Data)

/-- Modelled from the spec: canonical transaction of a `NormalizedSpell`
(`charms_client::NormalizedTransaction`). -/
structure NormalizedTransaction where
  ins : Option (List UtxoId)
  refs : Option (List UtxoId)
  outs : List NormalizedCharms
  beamed_outs : Option (List (Nat × B32))
deriving DecidableEq, Repr

/-- Modelled from the spec: the canonical form of a spell
(`charms_client::NormalizedSpell`): protocol version, canonical transaction,
app public inputs keyed by `App`, and a mock/production flag. -/
structure NormalizedSpell where
  version : Nat
  tx : NormalizedTransaction
  app_public_inputs : List (App × Data)
  mock : Bool
deriving DecidableEq, Repr

/-- Modelled from the spec: the currently supported protocol version
(`charms_client::CURRENT_VERSION`; the exact numeral is immaterial to the
claims, which only compare versions for equality). -/
def CURRENT_VERSION : Nat := 8

/-- `Spell::charms`: resolve a keyed charm map against the spell's app table;
fails when the map is absent or references a key missing from the table.
(`Data::from(v)` on an already-serialized value is the identity here.) -/
def Spell.charms (s : Spell) (charmsOpt : Option KeyedCharms) : Except String Charms :=
  match charmsOpt with
  | none => .error "missing charms field"
  | some kc =>
    match mapE kc (fun p =>
        match mGet? s.apps p.1 with
        | none => .error ("missing app " ++ String.mk p.1)
        | some app => .ok (app, p.2)) with
    | .error e => .error e
    | .ok l => .ok (mOfList l)

/-- `Spell::strings_of_charms`: resolve a list of spell inputs to
`(UtxoId, Charms)` pairs. -/
def Spell.strings_of_charms (s : Spell) (inputs : List Input) :
    Except String (List (UtxoId × Charms)) :=
  mapE inputs (fun input =>
    match input.utxo_id with
    | none => .error "missing input utxo_id"
    | some uid =>
      match s.charms input.charms with
      | .error e => .error e
      | .ok cs => .ok (uid, cs))

/-- `Spell::to_tx`: build a `Transaction` view directly from the source
spell. -/
def Spell.to_tx (s : Spell) : Except String Transaction :=
  match s.strings_of_charms s.ins with
  | .error e => .error e
  | .ok ins =>
    match s.strings_of_charms (s.refs.getD []) with
    | .error e => .error e
    | .ok refs =>
      match mapE s.outs (fun o => s.charms o.charms) with
      | .error e => .error e
      | .ok outs => .ok ⟨ins, refs, outs⟩

/-- `spell::app_inputs`: pair every app of the table with the input supplied
under its string key, defaulting to empty `Data`. -/
def app_inputs (keyed_apps : List (SKey × App)) (keyed_inputs : List (SKey × Data)) :
    List (App × Data) :=
  mOfList (keyed_apps.map (fun p => (p.2, (mGet? keyed_inputs p.1).getD [])))

/-- `Spell::normalized`: produce the `NormalizedSpell`, the per-app private
inputs, and the input-UTXO → beam-source-UTXO bindings.
(The final `expect` on `utxo_id` in the source is unreachable — all inputs
were checked to carry a `utxo_id` — and is modelled by dropping the
impossible case.) -/
def Spell.normalized (s : Spell) :
    Except String (NormalizedSpell × List (App × Data) × List (UtxoId × UtxoId)) :=
  if s.version ≠ CURRENT_VERSION then .error "unsupported version"
  else
    let keyed_public_inputs := s.public_args.getD []
    let keyed_apps := s.apps
    let apps : List App := sOfList (keyed_apps.map Prod.snd)
    let app_to_index : List (App × Nat) := mOfList (apps.zip (List.range apps.length))
    if apps.length ≠ keyed_apps.length then .error "duplicate apps"
    else
      let app_public_inputs := app_inputs keyed_apps keyed_public_inputs
      match mapE s.ins (fun u =>
          match u.utxo_id with
          | none => .error "missing input utxo_id"
          | some uid => .ok uid) with
      | .error e => .error e
      | .ok ins =>
        if (sOfList ins).length ≠ ins.length then .error "duplicate inputs"
        else
          match (match s.refs with
            | none => .ok none
            | some rs =>
              match mapE rs (fun u =>
                  match u.utxo_id with
                  | none => .error "missing input utxo_id"
                  | some uid => .ok uid) with
              | .error e => .error e
              | .ok l => .ok (some l) : Except String (Option (List UtxoId))) with
          | .error e => .error e
          | .ok refs =>
            match mapE s.outs (fun utxo =>
                match mapE (utxo.charms.getD []) (fun p =>
                    match mGet? keyed_apps p.1 with
                    | none => .error "missing app key"
                    | some app =>
                      match mGet? app_to_index app with
                      | none => .error "app is expected to be in app_to_index"
                      | some i => .ok (i, p.2)) with
                | .error e => .error e
                | .ok l => .ok (mOfList l)) with
            | .error e => .error e
            | .ok outs =>
              let beamed_outs0 : List (Nat × B32) :=
                mOfList ((s.outs.enum).filterMap (fun p => p.2.beam_to.map (fun b => (p.1, b))))
              let beamed_outs := if beamed_outs0.isEmpty then none else some beamed_outs0
              let norm_spell : NormalizedSpell :=
                { version := s.version
                  tx := { ins := some ins, refs := refs, outs := outs,
                          beamed_outs := beamed_outs }
                  app_public_inputs := app_public_inputs
                  mock := false }
              let app_private_inputs := app_inputs keyed_apps (s.private_args.getD [])
              let tx_ins_beamed_source_utxos := mOfList (s.ins.filterMap (fun input =>
                match input.utxo_id, input.beamed_from with
                | some u, some b => some (u, b)
                | _, _ => none))
              .ok (norm_spell, app_private_inputs, tx_ins_beamed_source_utxos)

/-- `Spell::denormalized`: project a `NormalizedSpell` back to source form,
reconstructing positional `$0000`-style string keys. -/
def Spell.denormalized (norm_spell : NormalizedSpell) : Except String Spell :=
  let apps := mOfList (((mKeys norm_spell.app_public_inputs).enum).map
    (fun p => (str_index p.1, p.2)))
  let public_inputs0 := mOfList (((mValues norm_spell.app_public_inputs).enum).filterMap
    (fun p => if p.2.isEmpty then none else some (str_index p.1, p.2)))
  let public_inputs := if public_inputs0.isEmpty then none else some public_inputs0
  match norm_spell.tx.ins with
  | none => .error "spell must have inputs"
  | some norm_spell_ins =>
    let ins := norm_spell_ins.map (fun u =>
      ({ utxo_id := some u, charms := none, beamed_from := none } : Input))
    let refs := norm_spell.tx.refs.map (fun rs => rs.map (fun u =>
      ({ utxo_id := some u, charms := none, beamed_from := none } : Input)))
    let outs := (norm_spell.tx.outs.enum).map (fun p =>
      ({ address := none, amount := none,
         charms :=
           match mOfList (p.2.map (fun q => (str_index q.1, q.2))) with
           | [] => none
           | kc => some kc,
         beam_to := norm_spell.tx.beamed_outs.bind (fun m => mGet? m p.1) } : Output))
    .ok { version := norm_spell.version, apps := apps, public_args := public_inputs,
          private_args := none, ins := ins, refs := refs, outs := outs }

/-! ## The contract sandbox and satisfaction engine (`charms-app-runner`)

The WASM execution itself (module instantiation and the run of `_start`, via
the `wasmi` interpreter) is external to this repository and is modelled as an
abstract semantics `WasmSem`, universally quantified in every theorem about
the runner: the runner's control flow — hash check, fuel accounting, error
propagation — is translated faithfully from `charms-app-runner/src/lib.rs`.
The canonical serialization `util::write` of the stdin payload lives in the
missing `charms_data` crate and is likewise passed as an abstract `Ser`. -/

/-- The execution store, carrying the optional fuel cap (`wasmi::Store`;
`fuel = none` models a store on which no fuel cap was set). -/
structure Store where
  fuel : Option Nat
deriving DecidableEq, Repr

/-- Abstract WASM semantics: given the module binary, the stdin payload and
the store, produce the store after the instantiated module's `_start` ran to
completion, or an error (instantiation failure, trap, fuel exhaustion). -/
structure WasmSem where
  execute : List Nat → List Nat → Store → Except String Store

/-- Abstract canonical serialization of the sandbox stdin payload
`(app, tx, x, w)` (`charms_data::util::write`). -/
abbrev Ser := App → Transaction → Data → Data → List Nat

/-- `wasmi::Store::get_fuel`: fails when fuel metering is not enabled. -/
def Store.get_fuel (st : Store) : Except String Nat :=
  match st.fuel with
  | some f => .ok f
  | none => .error "fuel metering is disabled"

/-- `charms_app_runner::MAX_FUEL_PER_RUN`. -/
def MAX_FUEL_PER_RUN : Nat := 1000000000

/-- `charms_app_runner::AppRunner` (the engine configuration is reduced to
the `count_cycles` flag; the flag decides both fuel metering in the engine
config and the cycle accounting). -/
structure AppRunner where
  count_cycles : Bool

/-- `AppRunner::vk`: the verification key of a binary is its SHA-256 hash. -/
def AppRunner.vk (_r : AppRunner) (binary : List Nat) : B32 := sha256Nat binary

/-- `AppRunner::run`: check the binary's hash against the app's declared
verification key, then execute the binary in a fresh store (with the fuel cap
set iff cycle counting is enabled), and report the consumed cycles. -/
def AppRunner.run (r : AppRunner) (wasm : WasmSem) (ser : Ser) (app_binary : List Nat)
    (app : App) (tx : Transaction) (x w : Data) : Except String Nat :=
  let vk := r.vk app_binary
  if app.vk = vk then
    let stdin_content := ser app tx x w
    let store : Store := { fuel := if r.count_cycles then some MAX_FUEL_PER_RUN else none }
    match wasm.execute app_binary stdin_content store with
    | .error e => .error e
    | .ok store =>
      match r.count_cycles with
      | true =>
        match store.get_fuel with
        | .error e => .error e
        | .ok f => .ok (MAX_FUEL_PER_RUN - f)
      | false => .ok 0
  else .error "app.vk mismatch"

/-- The per-app step of `AppRunner::run_all` (the body of its closure):
fast-path on the simple-transfer predicate, else look the binary up by the
app's verification key and run it, defaulting a missing private input to
empty `Data`. The simple-transfer predicate `is_simple_transfer` lives in the
missing `charms_data` crate and is modelled as an abstract pure predicate
`ist` (spec §6). -/
def AppRunner.run_app (r : AppRunner) (ist : App → Transaction → Bool) (wasm : WasmSem)
    (ser : Ser) (app_binaries : List (B32 × List Nat))
    (app_private_inputs : List (App × Data)) (tx : Transaction) (p : App × Data) :
    Except String Nat :=
  if ist p.1 tx then .ok 0
  else
    match mGet? app_binaries p.1.vk with
    | some app_binary =>
      r.run wasm ser app_binary p.1 tx p.2 ((mGet? app_private_inputs p.1).getD [])
    | none => .error "app binary not found"

/-- `AppRunner::run_all`: run every app of `app_public_inputs` (in map order,
i.e. ascending `App` order) and collect the per-app cycle counts; the first
failure aborts the whole call. -/
def AppRunner.run_all (r : AppRunner) (ist : App → Transaction → Bool) (wasm : WasmSem)
    (ser : Ser) (app_binaries : List (B32 × List Nat)) (tx : Transaction)
    (app_public_inputs : List (App × Data)) (app_private_inputs : List (App × Data)) :
    Except String (List Nat) :=
  mapE app_public_inputs (r.run_app ist wasm ser app_binaries app_private_inputs tx)

/-! ## The structural consistency checker (`charms-spell-checker`)

`is_correct` is translated from `charms-spell-checker/src/lib.rs`. Its
collaborators `charms_client::{prev_spells, well_formed, to_tx, apps}` and
`NormalizedTransaction::prev_txids` belong to the `charms_client` crate,
which is not in the tree; they are modelled from the spec (§4.2): the
checker's input is taken to be the already-extracted map from ancestor
transaction id to that ancestor's previously-verified `NormalizedSpell`. -/

/-- Modelled from the spec: the set of ancestor transaction ids referenced by
the spell's inputs and reference inputs
(`NormalizedTransaction::prev_txids`); `none` when the inputs are absent. -/
def NormalizedTransaction.prev_txids (tx : NormalizedTransaction) : Option (List TxId) :=
  tx.ins.map (fun ins => sOfList (ins.map UtxoId.txid ++ (tx.refs.getD []).map UtxoId.txid))

/-- Modelled from the spec: the apps referenced by a normalized spell — the
key set of its app public inputs (`charms_client::apps`). -/
def NormalizedSpell.apps (spell : NormalizedSpell) : List App :=
  mKeys spell.app_public_inputs

/-- Modelled from the spec: the beam-destination marker an origin-chain
output must carry to bind it to the destination UTXO (a `B32` digest of the
destination `UtxoId`; the exact encoding is immaterial to the claims). -/
def utxoMarker (u : UtxoId) : B32 := Nat.pair u.txid u.vout

/-- Modelled from the spec (§4.2, checks 1, 3 and 4, plus the structural
shape requirements): a normalized spell is well-formed w.r.t. an ancestor map
and beam-source bindings when its version is current, its inputs are present,
every referenced ancestor transaction is in the map, every non-beamed input
points at an existing output of its ancestor, and every beamed input's source
output carries the matching beam-destination marker
(`charms_client::well_formed`). -/
def well_formed (spell : NormalizedSpell) (prev_spells : List (TxId × NormalizedSpell))
    (tx_ins_beamed_source_utxos : List (UtxoId × UtxoId)) : Bool :=
  (spell.version = CURRENT_VERSION : Bool) &&
  spell.tx.ins.isSome &&
  (spell.tx.ins.getD []).all (fun u =>
    match mGet? tx_ins_beamed_source_utxos u with
    | none =>
      match mGet? prev_spells u.txid with
      | none => false
      | some prev => u.vout < prev.tx.outs.length
    | some src =>
      match mGet? prev_spells src.txid with
      | none => false
      | some prev =>
        match prev.tx.beamed_outs.bind (fun m => mGet? m src.vout) with
        | none => false
        | some marker => marker = utxoMarker u) &&
  ((spell.tx.refs.getD []).all (fun u => (mGet? prev_spells u.txid).isSome)) &&
  (spell.tx.outs.all (fun nc => nc.all (fun p => p.1 < spell.apps.length)))

/-- Modelled from the spec: resolve the charms of an ancestor output into
app-keyed form, mapping each dense app-index through the ancestor's own
sorted app set (`charms_client`'s spell resolution, used by its `to_tx`). -/
def resolvedCharms (prev_spells : List (TxId × NormalizedSpell)) (u : UtxoId) : Charms :=
  match mGet? prev_spells u.txid with
  | none => []
  | some prev =>
    match prev.tx.outs.get? u.vout with
    | none => []
    | some nc => mOfList (nc.filterMap (fun p => (prev.apps.get? p.1).map (fun a => (a, p.2))))

/-- Modelled from the spec: `charms_client::to_tx` — the fully resolved
transaction view of a normalized spell: input charms are inherited from the
referenced (or beam-source) ancestor output, output charms are the spell's
own, keyed by app. -/
def to_tx (spell : NormalizedSpell) (prev_spells : List (TxId × NormalizedSpell))
    (tx_ins_beamed_source_utxos : List (UtxoId × UtxoId)) : Transaction :=
  { ins := (spell.tx.ins.getD []).map (fun u =>
      (u, resolvedCharms prev_spells ((mGet? tx_ins_beamed_source_utxos u).getD u)))
    refs := (spell.tx.refs.getD []).map (fun u => (u, resolvedCharms prev_spells u))
    outs := spell.tx.outs.map (fun nc =>
      mOfList (nc.filterMap (fun p => (spell.apps.get? p.1).map (fun a => (a, p.2))))) }

/-- `charms_app_runner::AppInput`: binaries, public and private inputs
supplied for app execution. -/
structure AppInput where
  app_binaries : List (B32 × List Nat)
  app_public_inputs : List (App × Data)
  app_private_inputs : List (App × Data)

/-- `charms_spell_checker::apps_satisfied`: run all apps with a
non-cycle-counting runner; the source's `.expect(...)` panics on failure,
which aborts the proof — modelled as `false`. -/
def apps_satisfied (ist : App → Transaction → Bool) (wasm : WasmSem) (ser : Ser)
    (app_input : AppInput) (tx : Transaction) : Bool :=
  (AppRunner.run_all ⟨false⟩ ist wasm ser app_input.app_binaries tx
    app_input.app_public_inputs app_input.app_private_inputs).isOk

/-- `charms_spell_checker::is_correct`: the top-level spell verification
gate. A failed `check!` returns `false`; the `unreachable!` on absent inputs
cannot fire after `well_formed` passed and is modelled as `false`. -/
def is_correct (ist : App → Transaction → Bool) (wasm : WasmSem) (ser : Ser)
    (spell : NormalizedSpell) (prev_spells : List (TxId × NormalizedSpell))
    (app_input : Option AppInput)
    (tx_ins_beamed_source_utxos : List (UtxoId × UtxoId)) : Bool :=
  if well_formed spell prev_spells tx_ins_beamed_source_utxos then
    match spell.tx.prev_txids with
    | none => false
    | some prev_txids =>
      let all_prev_txids : List TxId :=
        sOfList ((mValues tx_ins_beamed_source_utxos).map UtxoId.txid ++ prev_txids)
      if all_prev_txids = sOfList (mKeys prev_spells) then
        let apps := spell.apps
        let charms_tx := to_tx spell prev_spells tx_ins_beamed_source_utxos
        (apps.all (fun app => ist app charms_tx) && app_input.isNone) ||
        (match app_input with
         | none => false
         | some ai => apps_satisfied ist wasm ser ai charms_tx)
      else false
  else false

/-! ## Further map lemmas -/

section MoreMapLemmas

variable {α : Type*} {β : Type*} [LinearOrder α]

theorem mInsert_perm_cons {k : α} {v : β} {m : List (α × β)} (h : k ∉ mKeys m) :
    (mInsert k v m).Perm ((k, v) :: m) := by
  induction m with
  | nil => simp [mInsert]
  | cons p t ih =>
    obtain ⟨k', v'⟩ := p
    simp only [mKeys, List.map_cons, List.mem_cons] at h
    push_neg at h
    simp only [mInsert]
    split_ifs with h1 h2
    · exact List.Perm.refl _
    · exact absurd h2 h.1
    · exact ((ih h.2).cons (k', v')).trans (List.Perm.swap _ _ _)

theorem mOfList_perm_of_nodup {l : List (α × β)} (h : (l.map Prod.fst).Nodup) :
    (mOfList l).Perm l := by
  induction l using List.reverseRecOn with
  | nil => simp [mOfList]
  | append_singleton l' p ih =>
    obtain ⟨k, v⟩ := p
    rw [mOfList_append]
    simp only [List.foldl_cons, List.foldl_nil]
    have hnd := List.nodup_append.mp (by simpa using h)
    have hk : k ∉ mKeys (mOfList l') := by
      rw [show mKeys (mOfList l') = sOfList (l'.map Prod.fst) from mKeys_mOfList]
      rw [mem_sOfList]
      intro hc
      exact hnd.2.2 hc (by simp)
    refine (mInsert_perm_cons hk).trans ?_
    refine ((ih hnd.1).cons (k, v)).trans ?_
    simpa using (List.perm_append_singleton (k, v) l').symm

theorem mem_mOfList_of_nodup {l : List (α × β)} {p : α × β} (h : (l.map Prod.fst).Nodup) :
    p ∈ mOfList l ↔ p ∈ l :=
  (mOfList_perm_of_nodup h).mem_iff

theorem sOfList_perm_of_nodup {l : List α} (h : l.Nodup) : (sOfList l).Perm l := by
  refine List.perm_of_nodup_nodup_toFinset_eq (ascending_sOfList l).nodup h ?_
  ext x
  simp [List.mem_toFinset, mem_sOfList]

end MoreMapLemmas

/-! ## Claim C3: integrity binding of `AppRunner::run` -/

/-- C3: if the SHA-256 content hash of the binary does not equal the app's
declared verification key, `AppRunner::run` fails with the integrity error
under *every* WASM semantics and serialization — i.e. before any bytecode is
instantiated or executed — and `vk(binary)` is exactly the SHA-256 digest of
the binary bytes. -/
theorem run_integrity_binding (r : AppRunner) (app_binary : List Nat) (app : App)
    (tx : Transaction) (x w : Data) (h : app.vk ≠ sha256Nat app_binary) :
    (∀ wasm : WasmSem, ∀ ser : Ser,
      r.run wasm ser app_binary app tx x w = .error "app.vk mismatch") ∧
    r.vk app_binary = bytesToNat (sha256 app_binary) := by
  constructor
  · intro wasm ser
    have hne : app.vk ≠ r.vk app_binary := h
    simp [AppRunner.run, hne]
  · rfl

/-- Witness for C3 at a concrete input: the zero key does not match the
SHA-256 hash of the empty binary, and `run` rejects it. -/
theorem run_integrity_binding_witness :
    (App.mk 0 0).vk ≠ sha256Nat [] ∧
    AppRunner.run ⟨true⟩ ⟨fun _ _ st => .ok st⟩ (fun _ _ _ _ => []) []
      (App.mk 0 0) ⟨[], [], []⟩ [] [] = .error "app.vk mismatch" := by
  have h : (App.mk 0 0).vk ≠ sha256Nat [] := by decide
  exact ⟨h, (run_integrity_binding ⟨true⟩ [] (App.mk 0 0) ⟨[], [], []⟩ [] [] h).1 _ _⟩

/-! ## Claim C9: cycle accounting of `AppRunner::run` -/

/-- C9: on success with `count_cycles = true` the reported cost is the fixed
maximum budget minus the fuel remaining after execution (the execution store
starts with the cap `MAX_FUEL_PER_RUN`); with `count_cycles = false` the run
is exactly the execution on a store with *no* fuel cap, and any success
reports cost `0`. -/
theorem run_cycle_accounting (r : AppRunner) (wasm : WasmSem) (ser : Ser)
    (app_binary : List Nat) (app : App) (tx : Transaction) (x w : Data) :
    (r.count_cycles = true → ∀ c, r.run wasm ser app_binary app tx x w = .ok c →
      ∃ st, wasm.execute app_binary (ser app tx x w) ⟨some MAX_FUEL_PER_RUN⟩ = .ok st ∧
        ∃ rem, st.fuel = some rem ∧ c = MAX_FUEL_PER_RUN - rem) ∧
    (r.count_cycles = false →
      r.run wasm ser app_binary app tx x w =
        if app.vk = r.vk app_binary then
          (wasm.execute app_binary (ser app tx x w) ⟨none⟩).map (fun _ => 0)
        else .error "app.vk mismatch") := by
  constructor
  · intro hcc c hrun
    obtain ⟨cc⟩ := r
    simp only at hcc
    subst hcc
    unfold AppRunner.run at hrun
    simp only [if_true] at hrun
    split at hrun
    · split at hrun
      · cases hrun
      · rename_i st hex
        revert hrun
        unfold Store.get_fuel
        cases hf : st.fuel with
        | none => intro hrun; cases hrun
        | some rem =>
          intro hrun
          simp only at hrun
          cases hrun
          exact ⟨st, hex, rem, hf, rfl⟩
    · cases hrun
  · intro hcc
    obtain ⟨cc⟩ := r
    simp only at hcc
    subst hcc
    unfold AppRunner.run
    simp only [Bool.false_eq_true, if_false]
    split
    · cases hex : wasm.execute app_binary (ser app tx x w) ⟨none⟩ <;>
        simp [hex, Except.map]
    · rfl

/-- Witness for C9 at a concrete input: with metering on and a WASM semantics
that consumes no fuel, the reported cost is `maximum − maximum = 0`, and the
final store's fuel is observed. -/
theorem run_cycle_accounting_witness :
    AppRunner.run ⟨true⟩ ⟨fun _ _ st => .ok st⟩ (fun _ _ _ _ => []) []
      (App.mk 0 (sha256Nat [])) ⟨[], [], []⟩ [] [] = .ok 0 ∧
    ∃ st, (WasmSem.mk (fun _ _ st => .ok st)).execute [] [] ⟨some MAX_FUEL_PER_RUN⟩ = .ok st ∧
      ∃ rem, st.fuel = some rem ∧ 0 = MAX_FUEL_PER_RUN - rem := by
  have hrun : AppRunner.run ⟨true⟩ ⟨fun _ _ st => .ok st⟩ (fun _ _ _ _ => []) []
      (App.mk 0 (sha256Nat [])) ⟨[], [], []⟩ [] [] = .ok 0 := by
    unfold AppRunner.run
    norm_num [AppRunner.vk]
    rfl
  refine ⟨hrun, ?_⟩
  exact (run_cycle_accounting ⟨true⟩ ⟨fun _ _ st => .ok st⟩ (fun _ _ _ _ => []) []
    (App.mk 0 (sha256Nat [])) ⟨[], [], []⟩ [] []).1 rfl 0 hrun

/-! ## Claim C8: the satisfaction loop `AppRunner::run_all` -/

/-- C8: with the public-input map in its `BTreeMap` form (strictly ascending
`App` keys), `run_all` processes exactly the listed apps in that order:
a simple-transfer app contributes cost `0` under every WASM semantics (the
sandbox is not consulted); a non-simple app whose verification key has no
binary makes the whole call fail (no partial result); on success the returned
list is the per-app costs in order; a missing private input defaults to the
empty `Data`. -/
theorem run_all_satisfaction (r : AppRunner) (ist : App → Transaction → Bool)
    (wasm : WasmSem) (ser : Ser) (bins : List (B32 × List Nat)) (tx : Transaction)
    (pub : List (App × Data)) (priv : List (App × Data)) (_hsorted : SortedKeys pub) :
    (∀ p ∈ pub, ist p.1 tx = true →
      ∀ wasm' : WasmSem, ∀ ser' : Ser,
        r.run_app ist wasm' ser' bins priv tx p = .ok 0) ∧
    (∀ p ∈ pub, ist p.1 tx = false → mGet? bins p.1.vk = none →
      ∃ e, r.run_all ist wasm ser bins tx pub priv = .error e) ∧
    (∀ cs, r.run_all ist wasm ser bins tx pub priv = .ok cs →
      List.Forall₂ (fun p c => r.run_app ist wasm ser bins priv tx p = .ok c) pub cs) ∧
    (∀ p ∈ pub, ist p.1 tx = false → ∀ bin, mGet? bins p.1.vk = some bin →
      mGet? priv p.1 = none →
      r.run_app ist wasm ser bins priv tx p = r.run wasm ser bin p.1 tx p.2 []) := by
  refine ⟨?_, ?_, ?_, ?_⟩
  · intro p _ hist wasm' ser'
    simp [AppRunner.run_app, hist]
  · intro p hp hist hbin
    refine mapE_error_of_mem hp ?_
    intro b
    simp [AppRunner.run_app, hist, hbin]
  · intro cs hok
    exact mapE_ok_iff.mp hok
  · intro p _ hist bin hbin hpriv
    simp [AppRunner.run_app, hist, hbin, hpriv]

/-- Witness for C8 at a concrete input: one non-simple app whose binary is
present runs and yields the per-app cost list `[0]` in order. -/
theorem run_all_satisfaction_witness :
    AppRunner.run_all ⟨false⟩ (fun _ _ => false) ⟨fun _ _ st => .ok st⟩
      (fun _ _ _ _ => []) [(sha256Nat [], [])] ⟨[], [], []⟩
      [(App.mk 0 (sha256Nat []), [])] [] = .ok [0] ∧
    List.Forall₂
      (fun p c => AppRunner.run_app ⟨false⟩ (fun _ _ => false) ⟨fun _ _ st => .ok st⟩
        (fun _ _ _ _ => []) [(sha256Nat [], [])] [] ⟨[], [], []⟩ p = .ok c)
      [(App.mk 0 (sha256Nat []), [])] [0] := by
  have hok : AppRunner.run_all ⟨false⟩ (fun _ _ => false) ⟨fun _ _ st => .ok st⟩
      (fun _ _ _ _ => []) [(sha256Nat [], [])] ⟨[], [], []⟩
      [(App.mk 0 (sha256Nat []), [])] [] = .ok [0] := by
    unfold AppRunner.run_all mapE AppRunner.run_app AppRunner.run
    norm_num [mGet?, AppRunner.vk]
    rfl
  refine ⟨hok, ?_⟩
  exact (run_all_satisfaction ⟨false⟩ (fun _ _ => false) ⟨fun _ _ st => .ok st⟩
    (fun _ _ _ _ => []) [(sha256Nat [], [])] ⟨[], [], []⟩
    [(App.mk 0 (sha256Nat []), [])] []
    (by simp [SortedKeys, Ascending, mKeys])).2.2.1 [0] hok

/-! ## Destructuring successful normalization -/

theorem forall₂_mem_right {α β : Type*} {R : α → β → Prop} {as : List α} {bs : List β}
    (h : List.Forall₂ R as bs) {b : β} (hb : b ∈ bs) : ∃ a ∈ as, R a b := by
  induction h with
  | nil => simp at hb
  | cons h1 h2 ih =>
    rcases List.mem_cons.mp hb with rfl | hb'
    · exact ⟨_, by simp, h1⟩
    · obtain ⟨a, ha, hr⟩ := ih hb'
      exact ⟨a, by simp [ha], hr⟩

theorem normalized_ok_elim {s : Spell} {ns : NormalizedSpell} {priv : List (App × Data)}
    {beams : List (UtxoId × UtxoId)} (h : s.normalized = .ok (ns, priv, beams)) :
    s.version = CURRENT_VERSION ∧
    (sOfList (s.apps.map Prod.snd)).length = s.apps.length ∧
    ns.app_public_inputs = app_inputs s.apps (s.public_args.getD []) ∧
    priv = app_inputs s.apps (s.private_args.getD []) ∧
    (∃ insL, ns.tx.ins = some insL ∧
      List.Forall₂ (fun (i : Input) u => i.utxo_id = some u) s.ins insL ∧
      (sOfList insL).length = insL.length) ∧
    (∀ nc ∈ ns.tx.outs, ∃ l, nc = mOfList l) ∧
    (∀ o ∈ s.outs, ∀ p ∈ o.charms.getD [], (mGet? s.apps p.1).isSome) ∧
    ns.version = s.version := by
  unfold Spell.normalized at h
  simp only at h
  split at h
  · cases h
  · rename_i hv
    split at h
    · cases h
    · rename_i ha
      split at h
      · cases h
      · rename_i insL hins
        split at h
        · cases h
        · rename_i hd
          split at h
          · cases h
          · rename_i refsL hrefs
            split at h
            · cases h
            · rename_i outsL houts
              cases h
              refine ⟨not_ne_iff.mp hv, not_ne_iff.mp ha, rfl, rfl,
                ⟨insL, rfl, ?_, not_ne_iff.mp hd⟩, ?_, ?_, rfl⟩
              · refine (mapE_ok_iff.mp hins).imp ?_
                intro a b hab
                revert hab
                cases hu : a.utxo_id with
                | none => intro hab; cases hab
                | some u => intro hab; cases hab; rfl
              · intro nc hnc
                obtain ⟨o, ho, hrel⟩ := forall₂_mem_right (mapE_ok_iff.mp houts) hnc
                revert hrel
                split
                · intro hrel; cases hrel
                · intro hrel; cases hrel; exact ⟨_, rfl⟩
              · intro o ho p hp
                obtain ⟨nc, hnc⟩ := mapE_isOk_forall houts ho
                by_contra hcon
                rw [Option.not_isSome_iff_eq_none] at hcon
                obtain ⟨e, he⟩ := mapE_error_of_mem (f := fun p =>
                    match mGet? s.apps p.1 with
                    | none => Except.error "missing app key"
                    | some app =>
                      match mGet? (mOfList ((sOfList (s.apps.map Prod.snd)).zip
                          (List.range (sOfList (s.apps.map Prod.snd)).length))) app with
                      | none => Except.error "app is expected to be in app_to_index"
                      | some i => Except.ok (i, p.2)) hp
                  (by intro b; simp [hcon])
                rw [he] at hnc
                cases hnc

theorem forall₂_mem_left {α β : Type*} {R : α → β → Prop} {as : List α} {bs : List β}
    (h : List.Forall₂ R as bs) {a : α} (ha : a ∈ as) : ∃ b ∈ bs, R a b := by
  induction h with
  | nil => simp at ha
  | cons h1 h2 ih =>
    rcases List.mem_cons.mp ha with rfl | ha'
    · exact ⟨_, by simp, h1⟩
    · obtain ⟨b, hb, hr⟩ := ih ha'
      exact ⟨b, by simp [hb], hr⟩

/-! ## Claim C10: completeness of the app public-input map -/

/-- C10: for every spell that normalizes successfully, the key set of the
resulting `app_public_inputs` is exactly the set of `App` values of the
spell's app table, and every declared app is mapped to the public argument
supplied under its string key, defaulting to the empty `Data`. -/
theorem normalized_app_public_inputs_complete (s : Spell) (ns : NormalizedSpell)
    (priv : List (App × Data)) (beams : List (UtxoId × UtxoId))
    (h : s.normalized = .ok (ns, priv, beams)) :
    (∀ a, a ∈ mKeys ns.app_public_inputs ↔ a ∈ s.apps.map Prod.snd) ∧
    (∀ k app, (k, app) ∈ s.apps →
      mGet? ns.app_public_inputs app = some ((mGet? (s.public_args.getD []) k).getD [])) := by
  obtain ⟨hv, hlen, hpub, -, -, -, -, -⟩ := normalized_ok_elim h
  constructor
  · intro a
    rw [hpub]
    unfold app_inputs
    rw [mem_mKeys_mOfList, List.map_map]
    exact Iff.rfl
  · intro k app hmem
    rw [hpub]
    unfold app_inputs
    apply mGet?_mOfList_of_nodup
    · have hnd : (s.apps.map Prod.snd).Nodup :=
        length_sOfList_eq_iff_nodup.mp (by simpa using hlen)
      rw [List.map_map]
      exact hnd
    · exact List.mem_map_of_mem (fun p => (p.2, (mGet? (s.public_args.getD []) p.1).getD []))
        hmem

/-- Concrete witness for C10: a one-app spell with a supplied public argument
normalizes, and the app's entry in `app_public_inputs` carries it. -/
theorem normalized_app_public_inputs_complete_witness :
    mGet? (app_inputs [("$A".data, App.mk 1 2)] [("$A".data, [7])]) (App.mk 1 2) =
      some [7] := by
  have h : (Spell.mk CURRENT_VERSION [("$A".data, App.mk 1 2)] (some [("$A".data, [7])])
      none [] none []).normalized = .ok
      (⟨CURRENT_VERSION, ⟨some [], none, [], none⟩, [(App.mk 1 2, [7])], false⟩,
       [(App.mk 1 2, [])], []) := by rfl
  have h2 := (normalized_app_public_inputs_complete _ _ _ _ h).2 "$A".data (App.mk 1 2)
    (by simp)
  exact h2.trans (by rfl)

/-! ## Claim C5: the invariant checks of `Spell::normalized` -/

/-- C5: normalization fails whenever the version is not the supported one, or
two distinct app-table keys map to the same `App`, or an input lacks a
`UtxoId`, or two inputs carry the same `UtxoId`; conversely all four checks
pass on any spell that normalizes successfully. -/
theorem normalized_invariant_checks (s : Spell) :
    ((s.version ≠ CURRENT_VERSION ∨
      (∃ k₁ k₂ a, k₁ ≠ k₂ ∧ (k₁, a) ∈ s.apps ∧ (k₂, a) ∈ s.apps) ∨
      (∃ inp ∈ s.ins, inp.utxo_id = none) ∨
      (∃ i j : Fin s.ins.length, i ≠ j ∧ (s.ins.get i).utxo_id.isSome ∧
        (s.ins.get i).utxo_id = (s.ins.get j).utxo_id)) →
      ∃ e, s.normalized = .error e) ∧
    (∀ ns priv beams, s.normalized = .ok (ns, priv, beams) →
      s.version = CURRENT_VERSION ∧
      ¬(∃ k₁ k₂ a, k₁ ≠ k₂ ∧ (k₁, a) ∈ s.apps ∧ (k₂, a) ∈ s.apps) ∧
      (∀ inp ∈ s.ins, inp.utxo_id.isSome) ∧
      ¬(∃ i j : Fin s.ins.length, i ≠ j ∧ (s.ins.get i).utxo_id.isSome ∧
        (s.ins.get i).utxo_id = (s.ins.get j).utxo_id)) := by
  have hok : ∀ ns priv beams, s.normalized = .ok (ns, priv, beams) →
      s.version = CURRENT_VERSION ∧
      ¬(∃ k₁ k₂ a, k₁ ≠ k₂ ∧ (k₁, a) ∈ s.apps ∧ (k₂, a) ∈ s.apps) ∧
      (∀ inp ∈ s.ins, inp.utxo_id.isSome) ∧
      ¬(∃ i j : Fin s.ins.length, i ≠ j ∧ (s.ins.get i).utxo_id.isSome ∧
        (s.ins.get i).utxo_id = (s.ins.get j).utxo_id) := by
    intro ns priv beams h
    obtain ⟨hv, hlen, -, -, ⟨insL, -, hins, hnd⟩, -, -, -⟩ := normalized_ok_elim h
    refine ⟨hv, ?_, ?_, ?_⟩
    · rintro ⟨k₁, k₂, a, hkne, h₁, h₂⟩
      have hsnd : (s.apps.map Prod.snd).Nodup :=
        length_sOfList_eq_iff_nodup.mp (by simpa using hlen)
      have hpw : s.apps.Pairwise (fun p q => p.2 ≠ q.2) := List.pairwise_map.mp hsnd
      have hforall := hpw.forall (fun p q hpq => (hpq ∘ Eq.symm : q.2 ≠ p.2))
      exact hforall h₁ h₂ (fun hc => hkne (congrArg Prod.fst hc))
        (show ((k₁, a) : SKey × App).2 = ((k₂, a) : SKey × App).2 from rfl)
    · intro inp hinp
      obtain ⟨u, -, hu⟩ := forall₂_mem_left hins hinp
      simp [hu]
    · rintro ⟨i, j, hij, hsome, heq⟩
      obtain ⟨hl, hget⟩ := List.forall₂_iff_get.mp hins
      have hndL : insL.Nodup := length_sOfList_eq_iff_nodup.mp hnd
      have hi := hget i.1 i.2 (hl ▸ i.2)
      have hj := hget j.1 j.2 (hl ▸ j.2)
      rw [heq] at hi
      rw [hj] at hi
      have heqf : (⟨i.1, hl ▸ i.2⟩ : Fin insL.length) = ⟨j.1, hl ▸ j.2⟩ :=
        (hndL.get_inj_iff).mp (Option.some_injective _ hi.symm)
      have hv12 : i.1 = j.1 := by simpa using heqf
      exact hij (Fin.ext hv12)
  refine ⟨?_, hok⟩
  intro hbad
  cases hres : s.normalized with
  | error e => exact ⟨e, rfl⟩
  | ok res =>
    obtain ⟨ns, priv, beams⟩ := res
    obtain ⟨hv, hB, hC, hD⟩ := hok ns priv beams hres
    rcases hbad with h | h | h | h
    · exact absurd hv h
    · exact absurd h hB
    · obtain ⟨inp, hinp, hnone⟩ := h
      have := hC inp hinp
      simp [hnone] at this
    · exact absurd h hD

/-- Concrete witness for C5: a spell with a stale version is rejected. -/
theorem normalized_invariant_checks_witness :
    ∃ e, (Spell.mk (CURRENT_VERSION + 1) [] none none [] none []).normalized = .error e := by
  exact (normalized_invariant_checks _).1 (Or.inl (by simp))

/-! ## Claim C6: unknown app keys in charm maps -/

/-- A spell whose single input carries a charm map referencing the key `$X`,
which is absent from the (empty) app table. -/
def inputCharmKeySpell : Spell :=
  ⟨CURRENT_VERSION, [], none, none,
   [⟨some ⟨0, 0⟩, some [("$X".data, [1])], none⟩], none, []⟩

/-- Counterexample to C6 as stated: a charm map *on an input* that references
a key missing from the app table does **not** make `normalized()` fail —
normalization never inspects input charm maps. -/
theorem normalized_ignores_input_charm_keys :
    (inputCharmKeySpell.ins.all (fun inp =>
      (inp.charms.getD []).all (fun p => mGet? inputCharmKeySpell.apps p.1 = none))) = true ∧
    inputCharmKeySpell.ins ≠ [] ∧
    (inputCharmKeySpell.ins.all (fun inp => inp.charms ≠ none)) = true ∧
    (inputCharmKeySpell.normalized).isOk = true := by
  refine ⟨rfl, by simp [inputCharmKeySpell], rfl, rfl⟩

/-- C6 (amended): if any *output*'s charm map references a key missing from
the app table, `normalized()` fails; input charm maps are not examined by
normalization. -/
theorem normalized_missing_output_app_key (s : Spell)
    (h : ∃ o ∈ s.outs, ∃ p ∈ o.charms.getD [], mGet? s.apps p.1 = none) :
    ∃ e, s.normalized = .error e := by
  cases hres : s.normalized with
  | error e => exact ⟨e, rfl⟩
  | ok res =>
    exfalso
    obtain ⟨ns, priv, beams⟩ := res
    obtain ⟨-, -, -, -, -, -, hkeys, -⟩ := normalized_ok_elim hres
    obtain ⟨o, ho, p, hp, hnone⟩ := h
    have := hkeys o ho p hp
    rw [hnone] at this
    cases this

/-- Witness for the amended C6 at a concrete input: an output charm map
referencing the unknown key `$X` is rejected. -/
theorem normalized_missing_output_app_key_witness :
    ∃ e, (Spell.mk CURRENT_VERSION [] none none [] none
      [⟨none, none, some [("$X".data, [1])], none⟩]).normalized = .error e := by
  refine normalized_missing_output_app_key _ ?_
  exact ⟨⟨none, none, some [("$X".data, [1])], none⟩, by simp, ("$X".data, [1]), by simp,
    rfl⟩

/-! ## Claim C7: absent charm maps in `Spell::to_tx` -/

/-- A spell with a single output that carries no charm map. -/
def noCharmsOutputSpell : Spell :=
  ⟨CURRENT_VERSION, [], none, none, [], none, [⟨none, none, none, none⟩]⟩

/-- Counterexample to C7 as stated: `to_tx` does **not** succeed on an output
with an absent charm map (defaulting it to empty) — it fails with the
missing-charms error. -/
theorem to_tx_no_output_default :
    noCharmsOutputSpell.outs = [⟨none, none, none, none⟩] ∧
    noCharmsOutputSpell.to_tx = .error "missing charms field" := ⟨rfl, rfl⟩

/-- C7 (amended): `to_tx` fails if any input or reference input lacks a charm
map, and likewise fails if any output lacks one (output charm maps are not
defaulted to empty by `Spell::to_tx`). -/
theorem to_tx_missing_charm_map (s : Spell)
    (h : (∃ inp ∈ s.ins, inp.charms = none) ∨
         (∃ inp ∈ s.refs.getD [], inp.charms = none) ∨
         (∃ o ∈ s.outs, o.charms = none)) :
    ∃ e, s.to_tx = .error e := by
  cases hres : s.to_tx with
  | error e => exact ⟨e, rfl⟩
  | ok t =>
    exfalso
    unfold Spell.to_tx at hres
    split at hres
    · cases hres
    · rename_i insR hins
      split at hres
      · cases hres
      · rename_i refsR hrefs
        split at hres
        · cases hres
        · rename_i outsR houts
          rcases h with ⟨inp, hmem, hch⟩ | ⟨inp, hmem, hch⟩ | ⟨o, hmem, hch⟩
          · obtain ⟨b, hb⟩ := mapE_isOk_forall hins hmem
            revert hb
            cases inp.utxo_id <;> simp [Spell.charms, hch]
          · obtain ⟨b, hb⟩ := mapE_isOk_forall hrefs hmem
            revert hb
            cases inp.utxo_id <;> simp [Spell.charms, hch]
          · obtain ⟨b, hb⟩ := mapE_isOk_forall houts hmem
            revert hb
            simp [Spell.charms, hch]

/-- Witness for the amended C7 at a concrete input: a spell whose single
input lacks a charm map is rejected by `to_tx`. -/
theorem to_tx_missing_charm_map_witness :
    ∃ e, (Spell.mk CURRENT_VERSION [] none none [⟨some ⟨0, 0⟩, none, none⟩] none
      []).to_tx = .error e := by
  refine to_tx_missing_charm_map _ (Or.inl ?_)
  exact ⟨⟨some ⟨0, 0⟩, none, none⟩, by simp, rfl⟩

/-! ## The `is_correct` gate: shared characterization -/

theorem prev_txids_some_elim {tx : NormalizedTransaction} {pt : List TxId}
    (h : tx.prev_txids = some pt) :
    ∃ insl, tx.ins = some insl ∧
      pt = sOfList (insl.map UtxoId.txid ++ (tx.refs.getD []).map UtxoId.txid) := by
  unfold NormalizedTransaction.prev_txids at h
  cases hins : tx.ins with
  | none => rw [hins] at h; cases h
  | some l => rw [hins] at h; cases h; exact ⟨l, rfl, rfl⟩

theorem prev_txids_isSome_of_well_formed {spell : NormalizedSpell}
    {prevs : List (TxId × NormalizedSpell)} {beams : List (UtxoId × UtxoId)}
    (h : well_formed spell prevs beams = true) :
    ∃ pt, spell.tx.prev_txids = some pt := by
  unfold well_formed at h
  simp only [Bool.and_eq_true] at h
  obtain ⟨⟨⟨⟨-, hins⟩, -⟩, -⟩, -⟩ := h
  obtain ⟨l, hl⟩ := Option.isSome_iff_exists.mp hins
  exact ⟨sOfList (l.map UtxoId.txid ++ (spell.tx.refs.getD []).map UtxoId.txid), by
    unfold NormalizedTransaction.prev_txids
    rw [hl]
    rfl⟩

/-- `is_correct` with the (present) previous-transaction-id set substituted
in. -/
theorem is_correct_eq_of_pt {spell : NormalizedSpell} {pt : List TxId}
    (ist : App → Transaction → Bool) (wasm : WasmSem) (ser : Ser)
    (prevs : List (TxId × NormalizedSpell)) (app_input : Option AppInput)
    (beams : List (UtxoId × UtxoId)) (hpt : spell.tx.prev_txids = some pt) :
    is_correct ist wasm ser spell prevs app_input beams =
      (if well_formed spell prevs beams then
        (if sOfList ((mValues beams).map UtxoId.txid ++ pt) = sOfList (mKeys prevs) then
          ((spell.apps.all fun a => ist a (to_tx spell prevs beams)) && app_input.isNone ||
            (match app_input with
             | none => false
             | some ai => apps_satisfied ist wasm ser ai (to_tx spell prevs beams)))
        else false)
      else false) := by
  unfold is_correct
  rw [hpt]

/-- The complete success characterization of `is_correct`: well-formedness,
the exact-ancestry check, and the simple-transfer/app-execution disjunction. -/
theorem is_correct_iff (ist : App → Transaction → Bool) (wasm : WasmSem) (ser : Ser)
    (spell : NormalizedSpell) (prevs : List (TxId × NormalizedSpell))
    (app_input : Option AppInput) (beams : List (UtxoId × UtxoId)) :
    is_correct ist wasm ser spell prevs app_input beams = true ↔
      (well_formed spell prevs beams = true ∧
       (∃ pt, spell.tx.prev_txids = some pt ∧
         sOfList ((mValues beams).map UtxoId.txid ++ pt) = sOfList (mKeys prevs)) ∧
       ((spell.apps.all (fun a => ist a (to_tx spell prevs beams)) = true ∧
          app_input = none) ∨
        (∃ ai, app_input = some ai ∧
          apps_satisfied ist wasm ser ai (to_tx spell prevs beams) = true))) := by
  by_cases hwf : well_formed spell prevs beams = true
  · obtain ⟨pt, hpt⟩ := prev_txids_isSome_of_well_formed hwf
    rw [is_correct_eq_of_pt ist wasm ser prevs app_input beams hpt, if_pos hwf]
    by_cases hset : sOfList ((mValues beams).map UtxoId.txid ++ pt) = sOfList (mKeys prevs)
    · rw [if_pos hset]
      cases app_input with
      | none =>
        simp only [Bool.or_eq_true, Bool.and_eq_true, Option.isNone_none]
        constructor
        · rintro (⟨hall, -⟩ | hfalse)
          · exact ⟨hwf, ⟨pt, hpt, hset⟩, Or.inl ⟨hall, trivial⟩⟩
          · cases hfalse
        · rintro ⟨-, -, ⟨hall, -⟩ | ⟨ai, hai, -⟩⟩
          · exact Or.inl ⟨hall, trivial⟩
          · cases hai
      | some ai =>
        simp only [Bool.or_eq_true, Bool.and_eq_true, Option.isNone_some]
        constructor
        · rintro (⟨-, hfalse⟩ | hsat)
          · cases hfalse
          · exact ⟨hwf, ⟨pt, hpt, hset⟩, Or.inr ⟨ai, rfl, hsat⟩⟩
        · rintro ⟨-, -, ⟨-, hnone⟩ | ⟨ai', hai', hsat⟩⟩
          · cases hnone
          · cases hai'
            exact Or.inr hsat
    · rw [if_neg hset]
      constructor
      · intro h; cases h
      · rintro ⟨-, ⟨pt', hpt', hset'⟩, -⟩
        rw [hpt] at hpt'
        cases hpt'
        exact absurd hset' hset
  · constructor
    · intro h
      exfalso
      revert h
      unfold is_correct
      rw [if_neg hwf]
      intro h
      cases h
    · rintro ⟨hwf', -, -⟩
      exact absurd hwf' hwf

/-! ## Claim C1: the top-level acceptance gate -/

/-- C1: `is_correct` returns `true` iff — on top of the well-formedness and
exact-ancestry checks — either every app referenced by the spell satisfies
the simple-transfer predicate on the resolved transaction view and no app
execution input was supplied, or an app execution input was supplied and
every app passes the per-app satisfaction run. -/
theorem is_correct_acceptance_gate (ist : App → Transaction → Bool) (wasm : WasmSem)
    (ser : Ser) (spell : NormalizedSpell) (prevs : List (TxId × NormalizedSpell))
    (app_input : Option AppInput) (beams : List (UtxoId × UtxoId)) :
    is_correct ist wasm ser spell prevs app_input beams = true ↔
      (well_formed spell prevs beams = true ∧
       (∃ pt, spell.tx.prev_txids = some pt ∧
         sOfList ((mValues beams).map UtxoId.txid ++ pt) = sOfList (mKeys prevs)) ∧
       ((spell.apps.all (fun a => ist a (to_tx spell prevs beams)) = true ∧
          app_input = none) ∨
        (∃ ai, app_input = some ai ∧
          apps_satisfied ist wasm ser ai (to_tx spell prevs beams) = true))) :=
  is_correct_iff ist wasm ser spell prevs app_input beams

/-- Witness for C1 at a concrete input: the empty spell with no ancestors,
no beam bindings and no app input is accepted. -/
theorem is_correct_acceptance_gate_witness :
    is_correct (fun _ _ => true) ⟨fun _ _ st => .ok st⟩ (fun _ _ _ _ => [])
      ⟨CURRENT_VERSION, ⟨some [], none, [], none⟩, [], false⟩ [] none [] = true := by
  refine (is_correct_acceptance_gate _ _ _ _ _ _ _).mpr ⟨rfl, ⟨[], rfl, rfl⟩, ?_⟩
  exact Or.inl ⟨rfl, rfl⟩

/-! ## Claim C2: exact ancestry -/

/-- The transaction ids referenced by the spell's inputs, reference inputs,
or beam-source bindings. -/
def referencedTxid (spell : NormalizedSpell) (beams : List (UtxoId × UtxoId))
    (t : TxId) : Prop :=
  t ∈ (mValues beams).map UtxoId.txid ∨
  t ∈ (spell.tx.ins.getD []).map UtxoId.txid ∨
  t ∈ (spell.tx.refs.getD []).map UtxoId.txid

/-- C2: verification succeeds only when the referenced ancestor transaction
ids are exactly the key set of the previous-spells map; removing any single
referenced ancestor from the map, or inserting any unreferenced entry, makes
verification fail. -/
theorem is_correct_exact_ancestry (ist : App → Transaction → Bool) (wasm : WasmSem)
    (ser : Ser) (spell : NormalizedSpell) (prevs : List (TxId × NormalizedSpell))
    (app_input : Option AppInput) (beams : List (UtxoId × UtxoId)) :
    (is_correct ist wasm ser spell prevs app_input beams = true →
      ∀ t, referencedTxid spell beams t ↔ t ∈ mKeys prevs) ∧
    (∀ t, referencedTxid spell beams t →
      is_correct ist wasm ser spell (mErase prevs t) app_input beams = false) ∧
    (∀ t, ¬ referencedTxid spell beams t → ∀ sp,
      is_correct ist wasm ser spell (mInsert t sp prevs) app_input beams = false) := by
  have hbridge : ∀ (m : List (TxId × NormalizedSpell)) (pt : List TxId),
      spell.tx.prev_txids = some pt →
      sOfList ((mValues beams).map UtxoId.txid ++ pt) = sOfList (mKeys m) →
      ∀ t, referencedTxid spell beams t ↔ t ∈ mKeys m := by
    intro m pt hpt hset t
    obtain ⟨insl, hins, hptdef⟩ := prev_txids_some_elim hpt
    have hmem := sOfList_eq_sOfList_iff.mp hset t
    rw [← hmem]
    rw [List.mem_append, hptdef, mem_sOfList, List.mem_append]
    unfold referencedTxid
    rw [hins]
    tauto
  refine ⟨?_, ?_, ?_⟩
  · intro h t
    obtain ⟨-, ⟨pt, hpt, hset⟩, -⟩ := (is_correct_iff ist wasm ser spell prevs
      app_input beams).mp h
    exact hbridge prevs pt hpt hset t
  · intro t href
    cases hres : is_correct ist wasm ser spell (mErase prevs t) app_input beams with
    | false => rfl
    | true =>
      exfalso
      obtain ⟨-, ⟨pt, hpt, hset⟩, -⟩ := (is_correct_iff ist wasm ser spell (mErase prevs t)
        app_input beams).mp hres
      have := (hbridge (mErase prevs t) pt hpt hset t).mp href
      exact (mem_mKeys_mErase.mp this).2 rfl
  · intro t href sp
    cases hres : is_correct ist wasm ser spell (mInsert t sp prevs) app_input beams with
    | false => rfl
    | true =>
      exfalso
      obtain ⟨-, ⟨pt, hpt, hset⟩, -⟩ := (is_correct_iff ist wasm ser spell
        (mInsert t sp prevs) app_input beams).mp hres
      refine href ((hbridge (mInsert t sp prevs) pt hpt hset t).mpr ?_)
      rw [mKeys_mInsert, mem_sInsert]
      exact Or.inl rfl

/-- Witness for C2 at a concrete input: a spell consuming output 0 of
ancestor transaction 5 verifies against the singleton ancestor map, and
erasing that ancestor makes verification fail. -/
theorem is_correct_exact_ancestry_witness :
    is_correct (fun _ _ => true) ⟨fun _ _ st => .ok st⟩ (fun _ _ _ _ => [])
      ⟨CURRENT_VERSION, ⟨some [⟨5, 0⟩], none, [], none⟩, [], false⟩
      (mErase [(5, ⟨CURRENT_VERSION, ⟨some [], none, [[]], none⟩, [], false⟩)] 5)
      none [] = false := by
  refine (is_correct_exact_ancestry (fun _ _ => true) ⟨fun _ _ st => .ok st⟩
    (fun _ _ _ _ => []) ⟨CURRENT_VERSION, ⟨some [⟨5, 0⟩], none, [], none⟩, [], false⟩
    [(5, ⟨CURRENT_VERSION, ⟨some [], none, [[]], none⟩, [], false⟩)] none []).2.1 5 ?_
  exact Or.inr (Or.inl (by simp))

/-! ## Claim C4: round-trip of normalization and denormalization -/

theorem mOfList_eq_nil_iff {α β : Type*} [LinearOrder α] {l : List (α × β)} :
    mOfList l = [] ↔ l = [] := by
  constructor
  · intro h
    cases l with
    | nil => rfl
    | cons p t =>
      exfalso
      have hmem : p.1 ∈ mKeys (mOfList (p :: t)) := by
        rw [mem_mKeys_mOfList]; simp
      rw [h] at hmem
      simp [mKeys] at hmem
  · intro h; rw [h]; rfl

/-- The keys of the positional app table rebuilt by `denormalized`. -/
theorem denorm_apps_keys (appsL : List App) :
    mKeys ((appsL.enum).map (fun p => (str_index p.1, p.2))) =
      (List.range appsL.length).map str_index := by
  unfold mKeys
  rw [List.map_map]
  rw [show (Prod.fst ∘ fun p : Nat × App => (str_index p.1, p.2)) =
    (str_index ∘ Prod.fst) from rfl]
  rw [← List.map_map, List.enum_map_fst]

/-- C4: denormalizing the result of a successful normalization yields a spell
whose app-table keys are the positional strings `$0000`, `$0001`, …, assigned
in ascending app-index (sorted `App`) order; whose app identities, input
`UtxoId`s, output charm `Data` values and beamed-output bindings equal those
of the canonical projection; in which every output whose normalized charm map
is empty has `charms = none`; and in which addresses, amounts and private
inputs are not reconstructed. -/
theorem denormalize_normalize_roundtrip (s : Spell) (ns : NormalizedSpell)
    (priv : List (App × Data)) (beams : List (UtxoId × UtxoId))
    (h : s.normalized = .ok (ns, priv, beams)) :
    ∃ d : Spell, Spell.denormalized ns = .ok d ∧
      Ascending (mKeys ns.app_public_inputs) ∧
      (mKeys d.apps).Perm
        ((List.range (mKeys ns.app_public_inputs).length).map str_index) ∧
      (∀ i a, (mKeys ns.app_public_inputs).get? i = some a →
        mGet? d.apps (str_index i) = some a) ∧
      (∃ insL, ns.tx.ins = some insL ∧
        d.ins = insL.map (fun u => ⟨some u, none, none⟩) ∧
        List.Forall₂ (fun (inp : Input) u => inp.utxo_id = some u) s.ins insL) ∧
      d.outs.length = ns.tx.outs.length ∧
      (∀ j nc, ns.tx.outs.get? j = some nc → ∃ o, d.outs.get? j = some o ∧
        (nc = [] ↔ o.charms = none) ∧
        (∀ i dv, (i, dv) ∈ nc ↔ (str_index i, dv) ∈ o.charms.getD []) ∧
        o.beam_to = ns.tx.beamed_outs.bind (fun m => mGet? m j) ∧
        o.address = none ∧ o.amount = none) ∧
      d.private_args = none := by
  obtain ⟨hv, hlen, hpub, hpriv, ⟨insL, hins_eq, hins_rel, hnd⟩, houtsS, hkeysOk, hver⟩ :=
    normalized_ok_elim h
  have hsorted : Ascending (mKeys ns.app_public_inputs) := by
    rw [hpub]
    exact sortedKeys_mOfList _
  have hprenodup : (mKeys (((mKeys ns.app_public_inputs).enum).map
      (fun p => (str_index p.1, p.2)))).Nodup := by
    rw [denorm_apps_keys]
    exact (List.nodup_range _).map str_index_injective
  refine ⟨⟨ns.version,
    mOfList (((mKeys ns.app_public_inputs).enum).map (fun p => (str_index p.1, p.2))),
    (if (mOfList (((mValues ns.app_public_inputs).enum).filterMap
          (fun p => if p.2.isEmpty then none else some (str_index p.1, p.2)))).isEmpty
      then none
      else some (mOfList (((mValues ns.app_public_inputs).enum).filterMap
          (fun p => if p.2.isEmpty then none else some (str_index p.1, p.2))))),
    none,
    insL.map (fun u => ⟨some u, none, none⟩),
    ns.tx.refs.map (fun rs => rs.map (fun u => ⟨some u, none, none⟩)),
    (ns.tx.outs.enum).map (fun p =>
      ⟨none, none,
       (match mOfList (p.2.map (fun q => (str_index q.1, q.2))) with
        | [] => none
        | kc => some kc),
       ns.tx.beamed_outs.bind (fun m => mGet? m p.1)⟩)⟩,
    ?_, hsorted, ?_, ?_, ⟨insL, hins_eq, rfl, hins_rel⟩, ?_, ?_, rfl⟩
  · unfold Spell.denormalized
    rw [hins_eq]
  · rw [mKeys_mOfList]
    rw [show ((((mKeys ns.app_public_inputs).enum).map
        (fun p => (str_index p.1, p.2))).map Prod.fst) =
      mKeys (((mKeys ns.app_public_inputs).enum).map (fun p => (str_index p.1, p.2)))
      from rfl]
    refine (sOfList_perm_of_nodup hprenodup).trans ?_
    rw [denorm_apps_keys]
  · intro i a hget
    refine mGet?_mOfList_of_nodup hprenodup ?_
    have : (i, a) ∈ (mKeys ns.app_public_inputs).enum := by
      rw [List.mk_mem_enum_iff_get?, hget]
    exact List.mem_map_of_mem (fun p => (str_index p.1, p.2)) this
  · simp
  · intro j nc hget
    have hoget : ((ns.tx.outs.enum).map (fun p =>
        (⟨none, none,
         (match mOfList (p.2.map (fun q => (str_index q.1, q.2))) with
          | [] => none
          | kc => some kc),
         ns.tx.beamed_outs.bind (fun m => mGet? m p.1)⟩ : Output))).get? j =
        some ⟨none, none,
          (match mOfList (nc.map (fun q => (str_index q.1, q.2))) with
           | [] => none
           | kc => some kc),
          ns.tx.beamed_outs.bind (fun m => mGet? m j)⟩ := by
      rw [List.get?_map, List.get?_enum, hget]
      rfl
    refine ⟨_, hoget, ?_, ?_, rfl, rfl, rfl⟩
    · constructor
      · intro hnil
        subst hnil
        rfl
      · intro hnone
        revert hnone
        split
        · rename_i hmzero
          intro _
          simpa using mOfList_eq_nil_iff.mp hmzero
        · intro hc; cases hc
    · intro i dv
      have hncS : SortedKeys nc := by
        obtain ⟨l', hl'⟩ := houtsS nc (List.get?_mem hget)
        rw [hl']
        exact sortedKeys_mOfList _
      have hnck : (mKeys nc).Nodup := hncS.nodup
      have hrenk : (mKeys (nc.map (fun q => (str_index q.1, q.2)))).Nodup := by
        rw [show mKeys (nc.map (fun q => (str_index q.1, q.2))) =
          (mKeys nc).map str_index by
            unfold mKeys; rw [List.map_map, List.map_map]; rfl]
        exact hnck.map str_index_injective
      have hchg : (⟨none, none,
          (match mOfList (nc.map (fun q => (str_index q.1, q.2))) with
           | [] => none
           | kc => some kc),
          ns.tx.beamed_outs.bind (fun m => mGet? m j)⟩ : Output).charms.getD [] =
          mOfList (nc.map (fun q => (str_index q.1, q.2))) := by
        cases hm : mOfList (nc.map (fun q => (str_index q.1, q.2))) with
        | nil => simp
        | cons q t => simp
      rw [hchg, mem_mOfList_of_nodup hrenk]
      constructor
      · intro hmem
        exact List.mem_map_of_mem (fun q => (str_index q.1, q.2)) hmem
      · intro hmem
        obtain ⟨⟨i', dv'⟩, hmem', heq⟩ := List.mem_map.mp hmem
        have h1 : str_index i' = str_index i := congrArg Prod.fst heq
        have h2 : dv' = dv := congrArg Prod.snd heq
        have h3 : i' = i := str_index_injective h1
        rw [← h3, ← h2]
        exact hmem'

/-- Witness for C4 at a concrete input: a one-app, one-input, one-output
spell round-trips; the rebuilt app table maps `$0000` to the app. -/
theorem denormalize_normalize_roundtrip_witness :
    ∃ d : Spell, Spell.denormalized
      (⟨CURRENT_VERSION, ⟨some [⟨3, 0⟩], none, [[(0, [9])]], none⟩,
        [(App.mk 1 2, [])], false⟩ : NormalizedSpell) = .ok d ∧
      mGet? d.apps (str_index 0) = some (App.mk 1 2) := by
  have h : (Spell.mk CURRENT_VERSION [("$T".data, App.mk 1 2)] none none
      [⟨some ⟨3, 0⟩, none, none⟩] none
      [⟨none, none, some [("$T".data, [9])], none⟩]).normalized =
      .ok (⟨CURRENT_VERSION, ⟨some [⟨3, 0⟩], none, [[(0, [9])]], none⟩,
            [(App.mk 1 2, [])], false⟩,
           [(App.mk 1 2, [])], []) := by rfl
  obtain ⟨d, hd, -, -, hidx, -, -, -, -⟩ := denormalize_normalize_roundtrip _ _ _ _ h
  exact ⟨d, hd, hidx 0 (App.mk 1 2) rfl⟩

end Charms
